import Mathlib

/-!
Verification of the nova-pydrobox core against its specification.

This development shallowly embeds the non-trivial logic of the repository:

* the credential codec (`_encode_value` / `_decode_value` in
  `nova_pydrobox/auth/token_storage.py`), modelled down to the byte level:
  Python `str.encode`/`bytes.decode` are modelled by a strict UTF-8
  encoder/decoder over code-point lists, and `base64.b64encode`/`b64decode`
  by an RFC-4648 encoder and a decoder that agrees with the stdlib on
  well-formed inputs;
* the `TokenStorage` state machine (keyring and Fernet-encrypted-file
  backends) with explicit state passing; the external collaborators
  (host keyring, filesystem, Fernet cipher, JSON) are modelled at their
  interface boundary: the keyring as a per-field map, the cipher as an
  abstract invertible wrapper tagged with its key, JSON as the parsed
  value itself (with a distinguished malformed case);
* the chunked upload/download call-count logic of
  `nova_pydrobox/operations/files.py`;
* the `rate_limit` decorator of `nova_pydrobox/auth/authenticator.py`.

All definitions are executable; theorems at the end settle the claims.
-/

set_option maxRecDepth 8000

namespace NovaPydrobox

/-- Model of Python strings and byte strings: lists of natural numbers
(code points, respectively byte values). -/
abbrev Str := List Nat

/-- `CHUNK_SIZE = 4 * 1024 * 1024` from `BaseOperations` (base.py line 80). -/
def CHUNK_SIZE : Nat := 4 * 1024 * 1024

/-- The 150 MiB large-object threshold hardcoded in files.py
(`150 * 1024 * 1024`). -/
def THRESHOLD : Nat := 150 * 1024 * 1024

/-! ### Base64 (model of `base64.b64encode` / `base64.b64decode`) -/

/-- The base64 alphabet: sextet index to ASCII code. -/
def b64char (n : Nat) : Nat :=
  if n < 26 then 65 + n
  else if n < 52 then 97 + (n - 26)
  else if n < 62 then 48 + (n - 52)
  else if n = 62 then 43
  else 47

/-- Inverse of the base64 alphabet: ASCII code to sextet index. -/
def b64charInv (c : Nat) : Option Nat :=
  if 65 ≤ c ∧ c ≤ 90 then some (c - 65)
  else if 97 ≤ c ∧ c ≤ 122 then some (26 + (c - 97))
  else if 48 ≤ c ∧ c ≤ 57 then some (52 + (c - 48))
  else if c = 43 then some 62
  else if c = 47 then some 63
  else none

/-- RFC 4648 base64 encoding of a byte list, with `=` (ASCII 61) padding;
model of `base64.b64encode`. -/
def b64encode : List Nat → List Nat
  | [] => []
  | [a] => [b64char (a / 4), b64char (a % 4 * 16), 61, 61]
  | [a, b] => [b64char (a / 4), b64char (a % 4 * 16 + b / 16), b64char (b % 16 * 4), 61]
  | a :: b :: c :: rest =>
      b64char (a / 4) :: b64char (a % 4 * 16 + b / 16) ::
      b64char (b % 16 * 4 + c / 64) :: b64char (c % 64) :: b64encode rest

/-- Base64 decoding; model of `base64.b64decode` (which raises on bad
padding — modelled as `none`). The stdlib additionally discards characters
outside the alphabet before decoding; on the well-formed inputs produced by
`b64encode` the two agree, and the stdlib's default mode does not check
unused trailing bits, which is why no trailing-bit check appears here. -/
def b64decode : List Nat → Option (List Nat)
  | [] => some []
  | c1 :: c2 :: c3 :: c4 :: rest =>
    match b64charInv c1, b64charInv c2 with
    | some a, some b =>
      if c3 = 61 then
        if c4 = 61 ∧ rest = [] then some [a * 4 + b / 16] else none
      else
        match b64charInv c3 with
        | some c =>
          if c4 = 61 then
            if rest = [] then some [a * 4 + b / 16, b % 16 * 16 + c / 4] else none
          else
            match b64charInv c4 with
            | some d =>
              match b64decode rest with
              | some tl =>
                  some ((a * 4 + b / 16) :: (b % 16 * 16 + c / 4) :: (c % 4 * 64 + d) :: tl)
              | none => none
            | none => none
        | none => none
    | _, _ => none
  | _ => none

/-! ### UTF-8 (model of `str.encode()` / `bytes.decode()`) -/

/-- Strict UTF-8 encoding of one code point; `none` on surrogates and
out-of-range values, exactly where CPython's `str.encode()` raises. -/
def utf8EncodeChar (c : Nat) : Option (List Nat) :=
  if c < 0x80 then some [c]
  else if c < 0x800 then some [0xC0 + c / 64, 0x80 + c % 64]
  else if c < 0x10000 then
    if 0xD800 ≤ c ∧ c ≤ 0xDFFF then none
    else some [0xE0 + c / 4096, 0x80 + c / 64 % 64, 0x80 + c % 64]
  else if c < 0x110000 then
    some [0xF0 + c / 262144, 0x80 + c / 4096 % 64, 0x80 + c / 64 % 64, 0x80 + c % 64]
  else none

/-- Strict UTF-8 encoding of a code-point list; model of `str.encode()`. -/
def utf8Encode : List Nat → Option (List Nat)
  | [] => some []
  | c :: cs =>
    match utf8EncodeChar c, utf8Encode cs with
    | some bs, some rest => some (bs ++ rest)
    | _, _ => none

mutual

/-- Strict UTF-8 decoding of a byte list; model of `bytes.decode()`.
Rejects stray continuation bytes, overlong forms (C0/C1 leads, E0 A0 and
F0 90 lower bounds), surrogates (ED lead with second byte ≥ A0), and code
points above U+10FFFF (F4 lead with second byte ≥ 90, or F5+ leads).
Split into one helper per continuation count (`utf8Cont1`/`utf8Cont2`/
`utf8Cont3` handle the tail bytes of a 2-, 3-, or 4-byte sequence led by
`b`). -/
def utf8Decode : List Nat → Option (List Nat)
  | [] => some []
  | b :: bs =>
    if b < 0x80 then Option.map (fun r => b :: r) (utf8Decode bs)
    else if b < 0xC2 then none
    else if b < 0xE0 then utf8Cont1 b bs
    else if b < 0xF0 then utf8Cont2 b bs
    else if b < 0xF5 then utf8Cont3 b bs
    else none
  termination_by bs => bs.length

/-- Tail bytes of a 2-byte UTF-8 sequence with lead byte `b`. -/
def utf8Cont1 : Nat → List Nat → Option (List Nat)
  | b, b1 :: bs1 =>
    if 0x80 ≤ b1 ∧ b1 < 0xC0 then
      Option.map (fun r => ((b - 0xC0) * 64 + (b1 - 0x80)) :: r) (utf8Decode bs1)
    else none
  | _, [] => none
  termination_by _ bs => bs.length

/-- Tail bytes of a 3-byte UTF-8 sequence with lead byte `b`. -/
def utf8Cont2 : Nat → List Nat → Option (List Nat)
  | b, b1 :: b2 :: bs2 =>
    if (0x80 ≤ b1 ∧ b1 < 0xC0) ∧ (0x80 ≤ b2 ∧ b2 < 0xC0)
        ∧ (b = 0xE0 → 0xA0 ≤ b1) ∧ (b = 0xED → b1 < 0xA0) then
      Option.map
        (fun r => ((b - 0xE0) * 4096 + (b1 - 0x80) * 64 + (b2 - 0x80)) :: r)
        (utf8Decode bs2)
    else none
  | _, _ => none
  termination_by _ bs => bs.length

/-- Tail bytes of a 4-byte UTF-8 sequence with lead byte `b`. -/
def utf8Cont3 : Nat → List Nat → Option (List Nat)
  | b, b1 :: b2 :: b3 :: bs3 =>
    if (0x80 ≤ b1 ∧ b1 < 0xC0) ∧ (0x80 ≤ b2 ∧ b2 < 0xC0) ∧ (0x80 ≤ b3 ∧ b3 < 0xC0)
        ∧ (b = 0xF0 → 0x90 ≤ b1) ∧ (b = 0xF4 → b1 < 0x90) then
      Option.map
        (fun r =>
          ((b - 0xF0) * 262144 + (b1 - 0x80) * 4096 + (b2 - 0x80) * 64 + (b3 - 0x80)) :: r)
        (utf8Decode bs3)
    else none
  | _, _ => none
  termination_by _ bs => bs.length

end

/-! ### The credential codec (`TokenStorage._encode_value` / `_decode_value`) -/

/-- `TokenStorage._encode_value` (token_storage.py lines 106-123):
`base64.b64encode(value.encode()).decode()`, falling back to the original
value if anything raises. The final `.decode()` of the ASCII base64 bytes
is the identity on our representation. -/
def encode_value (v : Str) : Str :=
  match utf8Encode v with
  | some bs => b64encode bs
  | none => v

/-- `TokenStorage._decode_value` (token_storage.py lines 125-142):
`base64.b64decode(value.encode()).decode()`, falling back to the original
value if any of the three steps raises. -/
def decode_value (v : Str) : Str :=
  match utf8Encode v with
  | none => v
  | some vb =>
    match b64decode vb with
    | none => v
    | some bs =>
      match utf8Decode bs with
      | some s => s
      | none => v

/-! ### Codec roundtrip lemmas -/

theorem b64char_lt_128 (n : Nat) : b64char n < 128 := by
  unfold b64char
  split_ifs <;> omega

theorem b64charInv_b64char (n : Nat) (h : n < 64) :
    b64charInv (b64char n) = some n := by
  interval_cases n <;> rfl

theorem b64char_ne_61 (n : Nat) (h : n < 64) : b64char n ≠ 61 := by
  unfold b64char
  split_ifs <;> omega

theorem b64decode_b64encode :
    ∀ bs : List Nat, (∀ x ∈ bs, x < 256) → b64decode (b64encode bs) = some bs
  | [], _ => rfl
  | [a], h => by
    have ha : a < 256 := h a (by simp)
    simp only [b64encode, b64decode,
      b64charInv_b64char (a / 4) (by omega),
      b64charInv_b64char (a % 4 * 16) (by omega)]
    simp
    omega
  | [a, b], h => by
    have ha : a < 256 := h a (by simp)
    have hb : b < 256 := h b (by simp)
    simp only [b64encode, b64decode,
      b64charInv_b64char (a / 4) (by omega),
      b64charInv_b64char (a % 4 * 16 + b / 16) (by omega),
      b64charInv_b64char (b % 16 * 4) (by omega)]
    rw [if_neg (b64char_ne_61 _ (by omega))]
    simp
    omega
  | a :: b :: c :: rest, h => by
    have ha : a < 256 := h a (by simp)
    have hb : b < 256 := h b (by simp)
    have hc : c < 256 := h c (by simp)
    have ih := b64decode_b64encode rest (fun x hx => h x (by simp [hx]))
    simp only [b64encode, b64decode,
      b64charInv_b64char (a / 4) (by omega),
      b64charInv_b64char (a % 4 * 16 + b / 16) (by omega),
      b64charInv_b64char (b % 16 * 4 + c / 64) (by omega),
      b64charInv_b64char (c % 64) (by omega)]
    rw [if_neg (b64char_ne_61 _ (by omega)), if_neg (b64char_ne_61 _ (by omega)), ih]
    simp
    omega

theorem utf8Decode_encodeChar (c : Nat) (e : List Nat) (h : utf8EncodeChar c = some e)
    (rest : List Nat) :
    utf8Decode (e ++ rest) = Option.map (fun r => c :: r) (utf8Decode rest) := by
  unfold utf8EncodeChar at h
  split_ifs at h with h1 h2 h3 h4 h5
  · injection h with h
    subst h
    simp only [List.cons_append, List.nil_append]
    rw [utf8Decode]
    rw [if_pos h1]
  · injection h with h
    subst h
    simp only [List.cons_append, List.nil_append]
    rw [utf8Decode]
    rw [if_neg (by omega), if_neg (by omega), if_pos (by omega), utf8Cont1,
      if_pos (by omega)]
    congr 1
    funext r
    congr 1
    omega
  · injection h with h
    subst h
    simp only [List.cons_append, List.nil_append]
    rw [utf8Decode]
    rw [if_neg (by omega), if_neg (by omega), if_neg (by omega), if_pos (by omega),
      utf8Cont2, if_pos (by omega)]
    congr 1
    funext r
    congr 1
    omega
  · injection h with h
    subst h
    simp only [List.cons_append, List.nil_append]
    rw [utf8Decode]
    rw [if_neg (by omega), if_neg (by omega), if_neg (by omega), if_neg (by omega),
      if_pos (by omega), utf8Cont3, if_pos (by omega)]
    congr 1
    funext r
    congr 1
    omega

theorem utf8Decode_utf8Encode :
    ∀ s bs : List Nat, utf8Encode s = some bs → utf8Decode bs = some s := by
  intro s
  induction s with
  | nil =>
    intro bs h
    simp only [utf8Encode, Option.some.injEq] at h
    subst h
    rw [utf8Decode]
  | cons c cs ih =>
    intro bs h
    simp only [utf8Encode] at h
    cases hc : utf8EncodeChar c with
    | none => rw [hc] at h; cases h
    | some e =>
      rw [hc] at h
      cases hcs : utf8Encode cs with
      | none => rw [hcs] at h; cases h
      | some rest =>
        rw [hcs] at h
        injection h with h
        subst h
        rw [utf8Decode_encodeChar c e hc rest, ih rest hcs]
        rfl

theorem utf8EncodeChar_lt_256 (c : Nat) (e : List Nat) (h : utf8EncodeChar c = some e) :
    ∀ x ∈ e, x < 256 := by
  unfold utf8EncodeChar at h
  split_ifs at h with h1 h2 h3 h4 h5 <;>
    (injection h with h; subst h; intro x hx; fin_cases hx <;> omega)

theorem utf8Encode_lt_256 :
    ∀ s bs : List Nat, utf8Encode s = some bs → ∀ x ∈ bs, x < 256 := by
  intro s
  induction s with
  | nil =>
    intro bs h
    simp only [utf8Encode, Option.some.injEq] at h
    subst h
    simp
  | cons c cs ih =>
    intro bs h
    simp only [utf8Encode] at h
    cases hc : utf8EncodeChar c with
    | none => rw [hc] at h; cases h
    | some e =>
      rw [hc] at h
      cases hcs : utf8Encode cs with
      | none => rw [hcs] at h; cases h
      | some rest =>
        rw [hcs] at h
        injection h with h
        subst h
        intro x hx
        rcases List.mem_append.1 hx with hxe | hxr
        · exact utf8EncodeChar_lt_256 c e hc x hxe
        · exact ih rest hcs x hxr

theorem utf8Encode_ascii :
    ∀ l : List Nat, (∀ x ∈ l, x < 128) → utf8Encode l = some l := by
  intro l
  induction l with
  | nil => intro _; rfl
  | cons c cs ih =>
    intro h
    have hc : c < 128 := h c (by simp)
    simp only [utf8Encode, utf8EncodeChar, if_pos hc,
      ih (fun x hx => h x (by simp [hx])), List.singleton_append]

theorem b64encode_ascii : ∀ bs : List Nat, ∀ x ∈ b64encode bs, x < 128
  | [], x, hx => by simp [b64encode] at hx
  | [a], x, hx => by
    simp only [b64encode, List.mem_cons, List.not_mem_nil, or_false] at hx
    rcases hx with rfl | rfl | rfl | rfl <;> first | exact b64char_lt_128 _ | omega
  | [a, b], x, hx => by
    simp only [b64encode, List.mem_cons, List.not_mem_nil, or_false] at hx
    rcases hx with rfl | rfl | rfl | rfl <;> first | exact b64char_lt_128 _ | omega
  | a :: b :: c :: rest, x, hx => by
    simp only [b64encode, List.mem_cons] at hx
    rcases hx with rfl | rfl | rfl | rfl | hx
    · exact b64char_lt_128 _
    · exact b64char_lt_128 _
    · exact b64char_lt_128 _
    · exact b64char_lt_128 _
    · exact b64encode_ascii rest x hx

/-- The key codec property behind claim C2:
`_decode_value (_encode_value x) = x` for every string `x`. -/
theorem decode_encode_value (x : Str) : decode_value (encode_value x) = x := by
  cases hx : utf8Encode x with
  | none =>
    have he : encode_value x = x := by unfold encode_value; rw [hx]
    rw [he]
    unfold decode_value
    simp only [hx]
  | some bs =>
    have he : encode_value x = b64encode bs := by unfold encode_value; rw [hx]
    rw [he]
    unfold decode_value
    simp only [utf8Encode_ascii (b64encode bs) (b64encode_ascii bs),
      b64decode_b64encode bs (utf8Encode_lt_256 x bs hx),
      utf8Decode_utf8Encode x bs hx]

theorem utf8EncodeChar_ne_nil (c : Nat) (e : List Nat) (h : utf8EncodeChar c = some e) :
    e ≠ [] := by
  unfold utf8EncodeChar at h
  split_ifs at h <;> (injection h with h; subst h; simp)

theorem utf8Encode_ne_nil (s bs : List Nat) (h : utf8Encode s = some bs) (hs : s ≠ []) :
    bs ≠ [] := by
  cases s with
  | nil => exact absurd rfl hs
  | cons c cs =>
    simp only [utf8Encode] at h
    cases hc : utf8EncodeChar c with
    | none => rw [hc] at h; cases h
    | some e =>
      rw [hc] at h
      cases hcs : utf8Encode cs with
      | none => rw [hcs] at h; cases h
      | some rest =>
        rw [hcs] at h
        injection h with h
        subst h
        cases e with
        | nil => exact absurd rfl (utf8EncodeChar_ne_nil c [] hc)
        | cons y ys => simp

theorem b64encode_ne_nil (bs : List Nat) (h : bs ≠ []) : b64encode bs ≠ [] := by
  match bs with
  | [] => exact absurd rfl h
  | [a] => simp [b64encode]
  | [a, b] => simp [b64encode]
  | a :: b :: c :: rest => simp [b64encode]

theorem encode_value_ne_nil (v : Str) (h : v ≠ []) : encode_value v ≠ [] := by
  unfold encode_value
  cases hv : utf8Encode v with
  | none => exact h
  | some bs => exact b64encode_ne_nil bs (utf8Encode_ne_nil v bs hv h)

/-! ### TokenStorage state model

The external collaborators of `TokenStorage` (token_storage.py) are modelled
at their interface boundary:

* the host keyring holds one optional value per credential field (other
  service names and keys never interact with this code);
* the filesystem holds the optional key file and the optional encrypted
  token file;
* `Fernet` is an abstract invertible cipher: a well-formed ciphertext
  remembers the key it was produced with, and decryption succeeds exactly
  when the keys match (`InvalidToken` otherwise); a `garbage` file content
  models bytes that are not a valid Fernet token under any key;
* `json.dumps`/`json.loads` are modelled by storing the parsed payload
  itself, with a distinguished `malformed` case for payloads that do not
  parse back;
* `Fernet.generate_key()` is modelled by drawing `freshKey` from the state
  (a fresh key never collides with a previously stored one in reality;
  collisions are simply never assumed below).
-/

/-- The four required credential fields of a `CredentialSet`. -/
inductive Field where
  | app_key
  | app_secret
  | access_token
  | refresh_token
deriving DecidableEq

/-- The fixed iteration order `["app_key", "app_secret", "access_token",
"refresh_token"]` used by `get_tokens` and `clear_tokens`. -/
def fieldList : List Field :=
  [Field.app_key, Field.app_secret, Field.access_token, Field.refresh_token]

/-- A JSON payload as stored in the encrypted token file: either a parsed
dictionary restricted to the four credential fields, or malformed bytes. -/
inductive JsonVal where
  | dict (m : Field → Option Str)
  | malformed

/-- Content of the `.tokens.encrypted` file: a well-formed Fernet token
produced under `key`, or `garbage` (bytes that are no Fernet token). -/
inductive FileContent where
  | encrypted (key : Nat) (payload : JsonVal)
  | garbage

/-- The state visible to one `TokenStorage` instance: the backend selection
made in `__init__`, the keyring entries under the service name, the key
file, the encrypted token file, and the next fresh Fernet key. -/
structure Storage where
  useKeyring : Bool
  keyring : Field → Option Str
  keyFile : Option Nat
  tokenFile : Option FileContent
  freshKey : Nat

/-- Failure injection for the external collaborators: which per-field
keyring writes raise, whether the token-file write raises, and whether
deleting the token file raises `OSError`. -/
structure Env where
  putFails : Field → Bool
  fernetWriteOk : Bool
  unlinkOk : Bool

/-- Pointwise update of the keyring map. -/
def updateField (g : Field → Option Str) (f : Field) (v : Str) : Field → Option Str :=
  fun f2 => if f2 = f then some v else g f2

/-- `TokenStorage._get_or_create_encryption_key` (lines 81-104): return the
existing key file bytes, otherwise generate a key, persist it and return
it. -/
def get_or_create_encryption_key (s : Storage) : Nat × Storage :=
  match s.keyFile with
  | some k => (k, s)
  | none =>
    (s.freshKey, { s with keyFile := some s.freshKey, freshKey := s.freshKey + 1 })

/-- `TokenStorage._fernet_save_tokens` (lines 217-243): get or create the
key, encrypt the JSON-serialized token dict, write the token file; `False`
if the write raises. -/
def fernet_save_tokens (env : Env) (tokens : Field → Str) (s : Storage) :
    Bool × Storage :=
  let p := get_or_create_encryption_key s
  if env.fernetWriteOk then
    (true,
     { p.2 with tokenFile := some (.encrypted p.1 (.dict (fun f => some (tokens f)))) })
  else (false, p.2)

/-- The per-field keyring writes of `save_tokens` (lines 163-170): each
failing write is logged and skipped, the others are stored encoded. -/
def saveKeyringPuts (env : Env) (tokens : Field → Str) (kr : Field → Option Str) :
    Field → Option Str :=
  fieldList.foldl
    (fun g f => if env.putFails f then g else updateField g f (encode_value (tokens f)))
    kr

/-- `TokenStorage.save_tokens` (lines 144-180): Fernet backend saves
directly; keyring backend writes each field and falls back to a full
Fernet save if any field write failed. -/
def save_tokens (env : Env) (tokens : Field → Str) (s : Storage) : Bool × Storage :=
  if !s.useKeyring then fernet_save_tokens env tokens s
  else
    let s2 := { s with keyring := saveKeyringPuts env tokens s.keyring }
    if fieldList.any env.putFails then fernet_save_tokens env tokens s2
    else (true, s2)

/-- `TokenStorage._fernet_get_tokens` (lines 245-306): absent file, failed
decryption (`InvalidToken`), malformed JSON and missing required fields all
yield `none`; note that the key is read (or created) only after the file
existence check, mirroring the code's order. -/
def fernet_get_tokens (s : Storage) : Option (Field → Option Str) × Storage :=
  match s.tokenFile with
  | none => (none, s)
  | some fc =>
    let p := get_or_create_encryption_key s
    match fc with
    | .garbage => (none, p.2)
    | .encrypted k2 payload =>
      if k2 = p.1 then
        match payload with
        | .malformed => (none, p.2)
        | .dict m =>
          if fieldList.all (fun f => (m f).isSome) then (some m, p.2) else (none, p.2)
      else (none, p.2)

/-- `TokenStorage.get_tokens` (lines 182-215): the keyring backend reads
the four fields, skipping absent **and empty** stored values (the code
tests `if encoded_value:`, and an empty string is falsy), and returns a
dict only when all four are present. -/
def get_tokens (s : Storage) : Option (Field → Option Str) × Storage :=
  if s.useKeyring then
    let m : Field → Option Str := fun f =>
      match s.keyring f with
      | some v => if v = [] then none else some (decode_value v)
      | none => none
    (if fieldList.all (fun f => (m f).isSome) then some m else none, s)
  else fernet_get_tokens s

/-- `TokenStorage.clear_tokens` (lines 317-346): the keyring backend
deletes all four fields (`PasswordDeleteError` on an absent field is
swallowed); the Fernet backend unlinks the token file if it exists,
returning `False` if the unlink raises. -/
def clear_tokens (env : Env) (s : Storage) : Bool × Storage :=
  if s.useKeyring then (true, { s with keyring := fun _ => none })
  else
    match s.tokenFile with
    | none => (true, s)
    | some _ =>
      if env.unlinkOk then (true, { s with tokenFile := none }) else (false, s)

/-! ### Chunked upload call counts (`FileOperations._upload_file`, files.py) -/

/-- Remote calls made by one upload: `files_upload`,
`files_upload_session_start`, `files_upload_session_append_v2`,
`files_upload_session_finish`. -/
structure UploadCalls where
  filesUpload : Nat
  sessionStart : Nat
  sessionAppend : Nat
  sessionFinish : Nat
deriving DecidableEq

/-- The `while f.tell() < file_size` loop of `_upload_large_file`
(files.py lines 131-144), counting `(appends, finishes)`. `pos` is
`f.tell()` after the session-start read; each iteration either finishes
with the remaining `≤ CHUNK_SIZE` bytes or appends a full chunk. The
trailing `files_upload_session_finish` after the loop (reachable only when
the loop is never entered) is the `else` branch. Fuel bounds the number of
iterations; `upload_large_file_calls` supplies enough for any size. -/
def uploadLargeLoop : Nat → Nat → Nat → Option (Nat × Nat)
  | 0, _, _ => none
  | fuel + 1, fileSize, pos =>
    if pos < fileSize then
      if fileSize - pos ≤ CHUNK_SIZE then some (0, 1)
      else
        match uploadLargeLoop fuel fileSize (pos + CHUNK_SIZE) with
        | some (a, fin) => some (a + 1, fin)
        | none => none
    else some (0, 1)

/-- `FileOperations._upload_large_file` (files.py lines 95-144): one
session-start call reading the first chunk (`min CHUNK_SIZE fileSize`
bytes), then the append/finish loop. -/
def upload_large_file_calls (fileSize : Nat) : Option UploadCalls :=
  match uploadLargeLoop (fileSize / CHUNK_SIZE + 2) fileSize (min CHUNK_SIZE fileSize) with
  | some (a, fin) => some ⟨0, 1, a, fin⟩
  | none => none

/-- `FileOperations._upload_file` (files.py lines 146-168): sizes up to
`150 * 1024 * 1024` take the small path (one `files_upload` call, no
session calls); larger sizes take `_upload_large_file`. -/
def upload_file_calls (fileSize : Nat) : Option UploadCalls :=
  if fileSize ≤ 150 * 1024 * 1024 then some ⟨1, 0, 0, 0⟩
  else upload_large_file_calls fileSize

/-- Ceiling division, spelling out the `ceil((S - chunk_size)/chunk_size)`
of the specification over naturals. -/
def ceilDiv (a b : Nat) : Nat := (a + b - 1) / b

/-! ### Chunked download loop (`FileOperations._download_large_file`, files.py
lines 258-305). The remote is modelled as the list of byte counts returned
by successive session calls (the first call is `files_download_session_start`,
the following ones `files_download_session_append`); the loop writes every
response and stops after the first response shorter than `CHUNK_SIZE`.
The result is `(calls made, bytes written)`, or `none` if the modelled
response list is exhausted before a short response arrives (the code would
keep calling the remote). -/

def downloadLargeLoop : List Nat → Option (Nat × Nat)
  | [] => none
  | r :: rest =>
    if r < CHUNK_SIZE then some (1, r)
    else
      match downloadLargeLoop rest with
      | some (calls, bytes) => some (calls + 1, r + bytes)
      | none => none

/-! ### The `rate_limit` decorator (authenticator.py lines 17-47) -/

/-- The closure-captured `attempts` dict of `rate_limit`, restricted to the
two keys it ever holds for the one decorated function:
`attempts[func.__name__]` and `attempts[func.__name__ + "_last"]`
(`.get` with default 0 on a missing key). -/
structure AttemptState where
  count : Nat
  last : Nat

/-- `attempts.clear()`: both keys become absent, so both `.get` defaults
to 0. -/
def clearedAttempts : AttemptState := ⟨0, 0⟩

set_option linter.unusedVariables false in
/-- One call of the `wrapper` produced by `rate_limit(maxAttempts,
cooldown)` around `func` (authenticator.py lines 24-43), returning
(result, whether `func` was invoked, new attempts state). The body first
executes `attempts.clear()`, then the too-many-attempts check, then calls
`func` and records a failed attempt. -/
def rateLimitCall {α : Type} (maxAttempts cooldown : Nat) (func : α → Bool) (x : α)
    (st0 : AttemptState) (now : Nat) : Bool × Bool × AttemptState :=
  let st := clearedAttempts
  if maxAttempts ≤ st.count then
    if now - st.last < cooldown then (false, false, st)
    else
      let st1 : AttemptState := ⟨0, st.last⟩
      let result := func x
      (result, true,
        if result then st1 else ⟨st1.count + 1, now⟩)
  else
    let result := func x
    (result, true,
      if result then st else ⟨st.count + 1, now⟩)

/-! ### Claim theorems -/

/-- C2: for every string `x` — empty, unicode, control characters,
unencodable values included — decoding the encoding returns the original
value: `TokenStorage._decode_value (TokenStorage._encode_value x) = x`.
Both functions are total in the model, mirroring the code's catch-all
`except` blocks that fall back to the input value. -/
theorem c2_encode_decode_roundtrip : ∀ x : Str, decode_value (encode_value x) = x :=
  decode_encode_value

/-- C10: the `rate_limit()` decorator (defaults `max_attempts = 3`,
`cooldown = 300`) applied to `authenticate_dropbox` is behaviorally
equivalent to the undecorated function: `attempts.clear()` runs first, so
the checked attempt count is 0, the cooldown branch is unreachable, the
wrapped function is always invoked and its result returned, for every
prior attempts state and clock value. -/
theorem c10_rate_limit_transparent :
    ∀ {α : Type} (func : α → Bool) (x : α) (st0 : AttemptState) (now : Nat),
      (rateLimitCall 3 300 func x st0 now).1 = func x
      ∧ (rateLimitCall 3 300 func x st0 now).2.1 = true := by
  intro α func x st0 now
  exact ⟨rfl, rfl⟩

/-- C6: the `_download_large_file` loop terminates exactly at the first
response shorter than `CHUNK_SIZE`: (i) any terminating run decomposes the
response stream into full-length responses followed by one short response,
consuming exactly those calls and writing exactly their bytes; (ii) a
stream with no short response never terminates the loop (the sole
termination condition is the short read — no total-bytes check); (iii) for
responses of 4 MiB, 4 MiB, 2 MiB the loop makes exactly 3 session calls
and writes exactly 10 MiB. -/
theorem c6_download_loop_short_read :
    (∀ rs calls bytes, downloadLargeLoop rs = some (calls, bytes) →
       ∃ pre r post, rs = pre ++ r :: post
         ∧ (∀ x ∈ pre, CHUNK_SIZE ≤ x) ∧ r < CHUNK_SIZE
         ∧ calls = pre.length + 1 ∧ bytes = pre.sum + r)
    ∧ (∀ rs, (∀ x ∈ rs, CHUNK_SIZE ≤ x) → downloadLargeLoop rs = none)
    ∧ downloadLargeLoop [4 * 1024 * 1024, 4 * 1024 * 1024, 2 * 1024 * 1024]
        = some (3, 10 * 1024 * 1024) := by
  refine ⟨?_, ?_, ?_⟩
  · intro rs
    induction rs with
    | nil => intro calls bytes h; cases h
    | cons r rest ih =>
      intro calls bytes h
      rw [downloadLargeLoop] at h
      by_cases hr : r < CHUNK_SIZE
      · rw [if_pos hr] at h
        injection h with h
        injection h with h1 h2
        exact ⟨[], r, rest, by simp, by simp, hr, by simp [h1.symm], by simp [h2.symm]⟩
      · rw [if_neg hr] at h
        cases hrec : downloadLargeLoop rest with
        | none => rw [hrec] at h; cases h
        | some p =>
          obtain ⟨c0, b0⟩ := p
          rw [hrec] at h
          injection h with h
          injection h with h1 h2
          obtain ⟨pre, r0, post, hsplit, hpre, hr0, hc, hb⟩ := ih c0 b0 hrec
          refine ⟨r :: pre, r0, post, by simp [hsplit], ?_, hr0, ?_, ?_⟩
          · intro x hx
            rcases List.mem_cons.1 hx with rfl | hx
            · omega
            · exact hpre x hx
          · simp only [List.length_cons]
            omega
          · simp only [List.sum_cons]
            omega
  · intro rs
    induction rs with
    | nil => intro _; rfl
    | cons r rest ih =>
      intro h
      have hr : CHUNK_SIZE ≤ r := h r (by simp)
      rw [downloadLargeLoop, if_neg (by omega), ih (fun x hx => h x (by simp [hx]))]
  · rfl

/-- Closed form of the `_upload_large_file` append/finish loop: with
enough fuel it always finishes, performing `(fileSize - pos - 1) /
CHUNK_SIZE` append calls and one finish call. -/
theorem uploadLargeLoop_eq (fuel : Nat) :
    ∀ (fileSize pos : Nat), 1 ≤ fuel → fileSize ≤ pos + fuel * CHUNK_SIZE →
      uploadLargeLoop fuel fileSize pos
        = some ((fileSize - pos - 1) / CHUNK_SIZE, 1) := by
  induction fuel with
  | zero => intro _ _ h1 _; omega
  | succ fuel ih =>
    intro fileSize pos _ h2
    rw [uploadLargeLoop]
    by_cases hp : pos < fileSize
    · rw [if_pos hp]
      by_cases hrem : fileSize - pos ≤ CHUNK_SIZE
      · rw [if_pos hrem]
        have : (fileSize - pos - 1) / CHUNK_SIZE = 0 :=
          Nat.div_eq_of_lt (by simp only [CHUNK_SIZE] at *; omega)
        rw [this]
      · rw [if_neg hrem]
        have hfuel1 : 1 ≤ fuel := by
          rcases Nat.eq_zero_or_pos fuel with rfl | h
          · simp only [CHUNK_SIZE] at *; omega
          · exact h
        rw [ih fileSize (pos + CHUNK_SIZE) hfuel1
              (by simp only [CHUNK_SIZE] at *; omega)]
        have : (fileSize - pos - 1) / CHUNK_SIZE
            = (fileSize - (pos + CHUNK_SIZE) - 1) / CHUNK_SIZE + 1 := by
          simp only [CHUNK_SIZE] at *
          omega
        rw [this]
    · rw [if_neg hp]
      have : (fileSize - pos - 1) / CHUNK_SIZE = 0 := by
        have : fileSize - pos = 0 := by omega
        simp [this]
      rw [this]

/-- `_upload_large_file` above the threshold: one session start, one
finish, and `(S - CHUNK_SIZE - 1) / CHUNK_SIZE` appends. -/
theorem upload_large_file_calls_eq (S : Nat) (h : 150 * 1024 * 1024 < S) :
    upload_large_file_calls S = some ⟨0, 1, (S - CHUNK_SIZE - 1) / CHUNK_SIZE, 1⟩ := by
  unfold upload_large_file_calls
  rw [Nat.min_eq_left (by simp only [CHUNK_SIZE]; omega)]
  rw [uploadLargeLoop_eq (S / CHUNK_SIZE + 2) S CHUNK_SIZE
        (Nat.succ_le_succ (Nat.zero_le _))
        (by show S ≤ 4 * 1024 * 1024 + (S / (4 * 1024 * 1024) + 2) * (4 * 1024 * 1024)
            omega)]

/-- C1 (amended): an upload of size `S ≤ 150 * 2^20` takes the small path
(one `files_upload` call, zero session calls); `S > 150 * 2^20` takes the
large path (one `upload_session_start`, `ceil((S - chunk_size)/chunk_size)
- 1` appends, one `upload_session_finish`, with `chunk_size = 4 * 2^20`).
In particular `S = 10 MiB` makes one upload call, and `S = 150 MiB + 1`
makes one session-start, 36 appends and one finish. -/
theorem c1_upload_call_counts :
    (∀ S : Nat, upload_file_calls S =
       some (if S ≤ 150 * 1024 * 1024 then ⟨1, 0, 0, 0⟩
             else ⟨0, 1, ceilDiv (S - CHUNK_SIZE) CHUNK_SIZE - 1, 1⟩))
    ∧ upload_file_calls (10 * 1024 * 1024) = some ⟨1, 0, 0, 0⟩
    ∧ upload_file_calls (150 * 1024 * 1024 + 1) = some ⟨0, 1, 36, 1⟩ := by
  have hgen : ∀ S : Nat, upload_file_calls S =
      some (if S ≤ 150 * 1024 * 1024 then ⟨1, 0, 0, 0⟩
            else ⟨0, 1, ceilDiv (S - CHUNK_SIZE) CHUNK_SIZE - 1, 1⟩) := by
    intro S
    by_cases hS : S ≤ 150 * 1024 * 1024
    · rw [if_pos hS]
      unfold upload_file_calls
      rw [if_pos hS]
    · rw [if_neg hS]
      unfold upload_file_calls
      rw [if_neg hS, upload_large_file_calls_eq S (by omega)]
      have : (S - CHUNK_SIZE - 1) / CHUNK_SIZE = ceilDiv (S - CHUNK_SIZE) CHUNK_SIZE - 1 := by
        unfold ceilDiv
        simp only [CHUNK_SIZE]
        omega
      rw [this]
  refine ⟨hgen, ?_, ?_⟩
  · rw [hgen]
    norm_num
  · rw [hgen]
    norm_num [ceilDiv, CHUNK_SIZE]

/-- C1 counterexample: the claim asserts that `S = 150 MiB + 1 byte`
yields a session-start and a finish with **zero** appends; the code
performs 36 append calls for that size. -/
theorem c1_counterexample :
    ¬ Option.map UploadCalls.sessionAppend (upload_file_calls (150 * 1024 * 1024 + 1))
        = some 0 := by
  rw [upload_file_calls, if_neg (by norm_num),
    upload_large_file_calls_eq (150 * 1024 * 1024 + 1) (by norm_num)]
  intro hcontra
  simp only [Option.map_some', Option.some.injEq] at hcontra
  rw [show (150 * 1024 * 1024 + 1 - CHUNK_SIZE - 1) / CHUNK_SIZE = 36 from by
    simp only [CHUNK_SIZE]] at hcontra
  cases hcontra

theorem saveKeyringPuts_ok (env : Env) (tokens : Field → Str) (kr : Field → Option Str)
    (henv : ∀ f, env.putFails f = false) (f : Field) :
    saveKeyringPuts env tokens kr f = some (encode_value (tokens f)) := by
  unfold saveKeyringPuts fieldList
  simp only [List.foldl_cons, List.foldl_nil, henv, Bool.false_eq_true, if_false]
  cases f <;> simp [updateField]

theorem fieldList_any_false (env : Env) (henv : ∀ f, env.putFails f = false) :
    fieldList.any env.putFails = false := by
  simp [fieldList, henv]

theorem get_or_create_key_spec (s : Storage) :
    (get_or_create_encryption_key s).2.keyFile = some (get_or_create_encryption_key s).1
    ∧ (get_or_create_encryption_key s).2.useKeyring = s.useKeyring
    ∧ (get_or_create_encryption_key s).2.keyring = s.keyring
    ∧ (get_or_create_encryption_key s).2.tokenFile = s.tokenFile := by
  unfold get_or_create_encryption_key
  cases hkf : s.keyFile with
  | some k => simp [hkf]
  | none => simp

/-- C3 (amended): for every credential set whose four string fields are all
**non-empty**, and for either backend, if the underlying backend operations
succeed then `save_tokens` returns `True` and a subsequent `get_tokens`
returns a set equal to the saved one. -/
theorem c3_save_get_roundtrip (s : Storage) (env : Env) (tokens : Field → Str)
    (hput : ∀ f, env.putFails f = false) (hwrite : env.fernetWriteOk = true)
    (hne : ∀ f, tokens f ≠ []) :
    (save_tokens env tokens s).1 = true
    ∧ (get_tokens (save_tokens env tokens s).2).1 = some (fun f => some (tokens f)) := by
  cases huk : s.useKeyring with
  | false =>
    obtain ⟨hk1, hk2, _, _⟩ := get_or_create_key_spec s
    generalize hgk : get_or_create_encryption_key s = p at hk1 hk2
    obtain ⟨k1, s1⟩ := p
    have hsave : save_tokens env tokens s
        = (true, { s1 with
            tokenFile := some (.encrypted k1 (.dict (fun f => some (tokens f)))) }) := by
      unfold save_tokens fernet_save_tokens
      rw [huk, hwrite, hgk]
      rfl
    have hk1s : s1.keyFile = some k1 := hk1
    have hk2s : s1.useKeyring = false := by rw [← huk]; exact hk2
    rw [hsave]
    refine ⟨rfl, ?_⟩
    unfold get_tokens
    simp only [hk2s, Bool.false_eq_true, if_false]
    unfold fernet_get_tokens
    simp only [get_or_create_encryption_key, hk1s]
    simp [fieldList]
  | true =>
    have hany := fieldList_any_false env hput
    have hsave : save_tokens env tokens s
        = (true, { s with keyring := saveKeyringPuts env tokens s.keyring }) := by
      unfold save_tokens
      rw [huk, hany]
      rfl
    rw [hsave]
    refine ⟨rfl, ?_⟩
    unfold get_tokens
    have hputs : ∀ f, saveKeyringPuts env tokens s.keyring f
        = some (encode_value (tokens f)) :=
      saveKeyringPuts_ok env tokens s.keyring hput
    have hnenc : ∀ f, encode_value (tokens f) ≠ [] :=
      fun f => encode_value_ne_nil (tokens f) (hne f)
    simp [huk, hputs, hnenc, decode_encode_value, fieldList]

theorem mem_fieldList (f : Field) : f ∈ fieldList := by
  cases f <;> simp [fieldList]

/-- An environment in which every backend operation succeeds. -/
def envOk : Env := ⟨fun _ => false, true, true⟩

/-- A fresh keyring-backed store: no keyring entries, no key file, no token
file. -/
def s0keyring : Storage := ⟨true, fun _ => none, none, none, 0⟩

/-- A fresh Fernet-backed store. -/
def s0fernet : Storage := ⟨false, fun _ => none, none, none, 0⟩

/-- A credential set whose four fields are all the string `"hi"`. -/
def tokensHi : Field → Str := fun _ => [104, 105]

/-- A credential set whose four fields are all the empty string. -/
def tokensEmpty : Field → Str := fun _ => []

theorem c3_save_get_roundtrip_witness :
    ((∀ f, envOk.putFails f = false) ∧ envOk.fernetWriteOk = true
      ∧ (∀ f, tokensHi f ≠ []))
    ∧ ((save_tokens envOk tokensHi s0keyring).1 = true
       ∧ (get_tokens (save_tokens envOk tokensHi s0keyring).2).1
           = some (fun f => some (tokensHi f))) :=
  ⟨⟨fun _ => rfl, rfl, fun _ => by simp [tokensHi]⟩,
   c3_save_get_roundtrip s0keyring envOk tokensHi (fun _ => rfl) rfl
     (fun _ => by simp [tokensHi])⟩

/-- C3 counterexample: with the keyring backend, a credential set whose
fields are empty strings saves successfully (every backend operation
succeeds), yet `get_tokens` returns `None` rather than the saved set,
because the keyring read path drops falsy (empty) stored values. -/
theorem c3_counterexample :
    (∀ f, envOk.putFails f = false) ∧ envOk.fernetWriteOk = true
    ∧ (save_tokens envOk tokensEmpty s0keyring).1 = true
    ∧ (get_tokens (save_tokens envOk tokensEmpty s0keyring).2).1 = none :=
  ⟨fun _ => rfl, rfl, rfl, rfl⟩

/-- A backend state that holds a proper non-empty subset of the four
required fields: for the keyring backend, some field is stored and some
field is absent; for the Fernet backend, the token file decrypts under the
stored key to a dict with some field present and some field missing. -/
def partialBackendState (s : Storage) : Prop :=
  (s.useKeyring = true ∧ (∃ f, s.keyring f ≠ none) ∧ (∃ f, s.keyring f = none))
  ∨ (s.useKeyring = false ∧ ∃ k m, s.keyFile = some k
      ∧ s.tokenFile = some (.encrypted k (.dict m))
      ∧ (∃ f, m f ≠ none) ∧ (∃ f, m f = none))

/-- C4: whenever the selected backend holds only a proper non-empty subset
(1 to 3) of the four required fields, `get_tokens` returns `None`; a
partial credential set is never returned. -/
theorem c4_no_partial_credentials (s : Storage) (h : partialBackendState s) :
    (get_tokens s).1 = none := by
  rcases h with ⟨huk, _, fa, hfa⟩ | ⟨huk, k, m, hkf, htf, _, fa, hfa⟩
  · unfold get_tokens
    simp only [huk, if_true]
    rw [if_neg]
    intro hall
    rw [List.all_eq_true] at hall
    have := hall fa (mem_fieldList fa)
    rw [hfa] at this
    simp at this
  · unfold get_tokens
    simp only [huk, Bool.false_eq_true, if_false]
    unfold fernet_get_tokens
    simp only [htf, get_or_create_encryption_key, hkf, if_true]
    rw [if_neg]
    intro hall
    rw [List.all_eq_true] at hall
    have := hall fa (mem_fieldList fa)
    rw [hfa] at this
    simp at this

/-- A keyring-backed state holding only `app_key`. -/
def sPartialKeyring : Storage :=
  ⟨true, fun f => if f = Field.app_key then some [104] else none, none, none, 0⟩

theorem c4_no_partial_credentials_witness :
    partialBackendState sPartialKeyring ∧ (get_tokens sPartialKeyring).1 = none :=
  ⟨Or.inl ⟨rfl, ⟨Field.app_key, by simp [sPartialKeyring]⟩,
     ⟨Field.app_secret, by simp [sPartialKeyring]⟩⟩,
   c4_no_partial_credentials sPartialKeyring
     (Or.inl ⟨rfl, ⟨Field.app_key, by simp [sPartialKeyring]⟩,
       ⟨Field.app_secret, by simp [sPartialKeyring]⟩⟩)⟩

/-- A store in which nothing is persisted: no keyring entries and no token
file. -/
def storeEmpty (s : Storage) : Prop :=
  (∀ f, s.keyring f = none) ∧ s.tokenFile = none

/-- C5: for every storage state and either backend (with the token-file
unlink succeeding), `clear_tokens` followed by `get_tokens` returns `None`,
and `clear_tokens` on an already-empty store returns `True`. -/
theorem c5_clear_then_get (s : Storage) (env : Env) (hunlink : env.unlinkOk = true) :
    (get_tokens (clear_tokens env s).2).1 = none
    ∧ (storeEmpty s → (clear_tokens env s).1 = true) := by
  cases huk : s.useKeyring with
  | true =>
    have hclear : clear_tokens env s = (true, { s with keyring := fun _ => none }) := by
      unfold clear_tokens
      rw [huk]
      rfl
    rw [hclear]
    constructor
    · unfold get_tokens
      simp [huk, fieldList]
    · intro _
      rfl
  | false =>
    cases htf : s.tokenFile with
    | none =>
      have hclear : clear_tokens env s = (true, s) := by
        unfold clear_tokens
        rw [huk, htf]
        rfl
      rw [hclear]
      constructor
      · unfold get_tokens
        simp only [huk, Bool.false_eq_true, if_false]
        unfold fernet_get_tokens
        simp [htf]
      · intro _
        rfl
    | some fc =>
      have hclear : clear_tokens env s = (true, { s with tokenFile := none }) := by
        unfold clear_tokens
        rw [huk, htf, hunlink]
        rfl
      rw [hclear]
      constructor
      · unfold get_tokens
        simp only [huk, Bool.false_eq_true, if_false]
        unfold fernet_get_tokens
        rfl
      · intro ⟨_, habs⟩
        rw [habs] at htf

theorem c5_clear_then_get_witness :
    (envOk.unlinkOk = true)
    ∧ ((get_tokens (clear_tokens envOk s0fernet).2).1 = none
       ∧ (storeEmpty s0fernet → (clear_tokens envOk s0fernet).1 = true)) :=
  ⟨rfl, c5_clear_then_get s0fernet envOk rfl⟩

/-- A Fernet-backend retrieval failure state: the token file exists but is
garbage (no valid Fernet token), or is encrypted under a key different
from the stored key file, or decrypts to malformed JSON, or decrypts to a
dict missing one of the four required fields. -/
def fernetFailureState (s : Storage) : Prop :=
  ∃ fc, s.tokenFile = some fc ∧
    (fc = .garbage
     ∨ ∃ k p, fc = .encrypted k p ∧
        ((∃ k0, s.keyFile = some k0 ∧ k0 ≠ k)
         ∨ p = .malformed
         ∨ ∃ m, p = .dict m ∧ ∃ f, m f = none))

/-- C7: with the Fernet (encrypted-file) backend selected, every
decryption-path failure — corrupted ciphertext, key mismatch, malformed
JSON, or a decrypted dict missing a required field — makes `get_tokens`
return `None`; the model is total, mirroring the code's `except` handlers
that never let these escape. -/
theorem c7_fernet_get_failures (s : Storage) (huk : s.useKeyring = false)
    (h : fernetFailureState s) : (get_tokens s).1 = none := by
  obtain ⟨fc, htf, hbad⟩ := h
  unfold get_tokens
  simp only [huk, Bool.false_eq_true, if_false]
  unfold fernet_get_tokens
  rcases hbad with rfl | ⟨k, p, rfl, hcase⟩
  · simp [htf]
  · rcases hcase with ⟨k0, hk0, hne⟩ | rfl | ⟨m, rfl, fa, hfa⟩
    · simp only [htf, get_or_create_encryption_key, hk0]
      rw [if_neg (by simpa using Ne.symm hne)]
    · simp only [htf]
      by_cases hk : k = (get_or_create_encryption_key s).1
      · rw [if_pos hk]
      · rw [if_neg hk]
    · simp only [htf]
      by_cases hk : k = (get_or_create_encryption_key s).1
      · rw [if_pos hk, if_neg]
        intro hall
        rw [List.all_eq_true] at hall
        have := hall fa (mem_fieldList fa)
        rw [hfa] at this
        simp at this
      · rw [if_neg hk]

/-- A Fernet-backed store whose token file holds bytes that are not a
valid Fernet token. -/
def sGarbage : Storage := ⟨false, fun _ => none, some 5, some .garbage, 6⟩

theorem c7_fernet_get_failures_witness :
    (sGarbage.useKeyring = false ∧ fernetFailureState sGarbage)
    ∧ (get_tokens sGarbage).1 = none :=
  ⟨⟨rfl, ⟨.garbage, rfl, Or.inl rfl⟩⟩,
   c7_fernet_get_failures sGarbage rfl ⟨.garbage, rfl, Or.inl rfl⟩⟩

/-- The Fernet key `_fernet_save_tokens` will encrypt under: the key file's
content if it exists, else the freshly generated key. -/
def keyOf (s : Storage) : Nat :=
  match s.keyFile with
  | some k => k
  | none => s.freshKey

/-- C8: with the keyring backend selected, if any per-field keyring write
fails during `save_tokens`, the whole credential set is saved through the
Fernet file backend instead: `save_tokens` succeeds exactly when that
fallback write succeeds, and on success the token file holds the entire
four-field set. -/
theorem c8_keyring_save_fallback (s : Storage) (env : Env) (tokens : Field → Str)
    (huk : s.useKeyring = true) (hfail : ∃ f, env.putFails f = true) :
    (save_tokens env tokens s).1 = env.fernetWriteOk
    ∧ (env.fernetWriteOk = true →
        ((save_tokens env tokens s).2).tokenFile
          = some (.encrypted (keyOf s) (.dict (fun f => some (tokens f))))) := by
  obtain ⟨f0, hf0⟩ := hfail
  have hany : fieldList.any env.putFails = true :=
    List.any_eq_true.2 ⟨f0, mem_fieldList f0, hf0⟩
  have hsave : save_tokens env tokens s
      = fernet_save_tokens env tokens
          { s with keyring := saveKeyringPuts env tokens s.keyring } := by
    unfold save_tokens
    rw [huk, hany]
    rfl
  rw [hsave]
  unfold fernet_save_tokens get_or_create_encryption_key keyOf
  cases hkf : s.keyFile with
  | some k =>
    simp only [hkf]
    cases hw : env.fernetWriteOk with
    | true => exact ⟨rfl, fun _ => rfl⟩
    | false => exact ⟨rfl, fun hcontra => by cases hcontra⟩
  | none =>
    simp only [hkf]
    cases hw : env.fernetWriteOk with
    | true => exact ⟨rfl, fun _ => rfl⟩
    | false => exact ⟨rfl, fun hcontra => by cases hcontra⟩

/-- An environment in which the keyring write of `app_secret` raises and
everything else succeeds. -/
def envPutFails : Env :=
  ⟨fun f => if f = Field.app_secret then true else false, true, true⟩

theorem c8_keyring_save_fallback_witness :
    (s0keyring.useKeyring = true ∧ (∃ f, envPutFails.putFails f = true))
    ∧ ((save_tokens envPutFails tokensHi s0keyring).1 = envPutFails.fernetWriteOk
       ∧ (envPutFails.fernetWriteOk = true →
           ((save_tokens envPutFails tokensHi s0keyring).2).tokenFile
             = some (.encrypted (keyOf s0keyring)
                 (.dict (fun f => some (tokensHi f)))))) :=
  ⟨⟨rfl, ⟨Field.app_secret, rfl⟩⟩,
   c8_keyring_save_fallback s0keyring envPutFails tokensHi rfl
     ⟨Field.app_secret, rfl⟩⟩

/-- C9: once a key file exists, it is stable: `_get_or_create_encryption_key`
returns its bytes and leaves the state unchanged (no regeneration), and
`save_tokens`, `get_tokens` and `clear_tokens` never rewrite or delete it,
for any environment and credential set. Key generation therefore happens
only when no key file exists. -/
theorem c9_key_file_stable (s : Storage) (k : Nat) (env : Env) (tokens : Field → Str)
    (hk : s.keyFile = some k) :
    get_or_create_encryption_key s = (k, s)
    ∧ ((save_tokens env tokens s).2).keyFile = some k
    ∧ ((get_tokens s).2).keyFile = some k
    ∧ ((clear_tokens env s).2).keyFile = some k := by
  have hgk : get_or_create_encryption_key s = (k, s) := by
    unfold get_or_create_encryption_key
    rw [hk]
  refine ⟨hgk, ?_, ?_, ?_⟩
  · unfold save_tokens
    cases huk : s.useKeyring with
    | false =>
      simp only [Bool.not_false, if_true]
      unfold fernet_save_tokens
      rw [hgk]
      cases hw : env.fernetWriteOk <;> simp [hk]
    | true =>
      simp only [Bool.not_true, Bool.false_eq_true, if_false]
      cases hany : fieldList.any env.putFails with
      | false => simpa using hk
      | true =>
        simp only [if_true]
        unfold fernet_save_tokens
        unfold get_or_create_encryption_key
        simp only [hk]
        cases hw : env.fernetWriteOk <;> simp [hk]
  · unfold get_tokens
    cases huk : s.useKeyring with
    | true => simpa using hk
    | false =>
      simp only [Bool.false_eq_true, if_false]
      unfold fernet_get_tokens
      cases htf : s.tokenFile with
      | none => simpa using hk
      | some fc =>
        simp only [hgk]
        cases fc with
        | garbage => exact hk
        | encrypted k2 payload =>
          by_cases hk2 : k2 = k
          · subst hk2
            simp only [if_pos rfl]
            cases payload with
            | malformed => exact hk
            | dict m =>
              by_cases hall : fieldList.all (fun f => (m f).isSome) = true
              · simp [hall, hk]
              · simp [hall, hk]
          · simp only [if_neg hk2]
            exact hk
  · unfold clear_tokens
    cases huk : s.useKeyring with
    | true => simpa using hk
    | false =>
      simp only [Bool.false_eq_true, if_false]
      cases htf : s.tokenFile with
      | none => simpa using hk
      | some fc =>
        cases hu : env.unlinkOk <;> simp [hk]

theorem c9_key_file_stable_witness :
    (sGarbage.keyFile = some 5)
    ∧ (get_or_create_encryption_key sGarbage = (5, sGarbage)
       ∧ ((save_tokens envOk tokensHi sGarbage).2).keyFile = some 5
       ∧ ((get_tokens sGarbage).2).keyFile = some 5
       ∧ ((clear_tokens envOk sGarbage).2).keyFile = some 5) :=
  ⟨rfl, c9_key_file_stable sGarbage 5 envOk tokensHi rfl⟩

end NovaPydrobox
